import Mathlib

/-!
# Log tailing and broadcast hub (Practice_Sachin_Questions)

A shallow embedding of

* `filereader/filereader.go` and `filereader/helper.go` (the tail reader),
* `websocket/utils/utils.go` (the registry of connected clients),

together with the parts of the Go standard library these files call
(`utf8.EncodeRune` behind `string(byte)`, `strings.Join`, `bufio.ScanLines`
and the `bufio.Scanner` loop).

Conventions.  A Go `string` or `[]byte` is a list of byte values (`Bytes`);
a byte is a natural number below 256.  The file system is a function from
paths to contents, `none` when `os.Open` fails.  A method with a pointer
receiver returns its result together with the receiver after the call.
-/

namespace FileTail

/-- Byte strings: the content of a Go `string` or `[]byte`. -/
abbrev Bytes := List Nat

/-- The errors the file operations can return. -/
inductive IOError where
  | notExist
  | invalidSeek
  | eof
  deriving DecidableEq, Repr

/-- The file system as the reader sees it: the bytes stored at a path, or
`none` when the path cannot be opened. -/
abbrev FS := String → Option Bytes

/-- The struct `FileReader` of `filereader.go`; `lastByte` is an `int64`. -/
structure FileReader where
  filePath : String
  lastByte : Int
  deriving DecidableEq, Repr

/-- The constructor `NewFileReader`. -/
def NewFileReader (filePath : String) : FileReader :=
  { filePath := filePath, lastByte := 0 }

/-! ## `unicode/utf8`: what `string(b)` does for an integer `b` -/

def rune1Max : Nat := 0x7F
def rune2Max : Nat := 0x7FF
def rune3Max : Nat := 0xFFFF
def MaxRune : Nat := 0x10FFFF
def surrogateMin : Nat := 0xD800
def surrogateMax : Nat := 0xDFFF
def RuneError : Nat := 0xFFFD
def tx : Nat := 0x80
def t2 : Nat := 0xC0
def t3 : Nat := 0xE0
def t4 : Nat := 0xF0
def maskx : Nat := 0x3F

/-- The conversion `byte(r)`: the low eight bits. -/
def toByte (r : Nat) : Nat := r % 256

/-- The three-byte branch of `utf8.EncodeRune`. -/
def encode3 (r : Nat) : Bytes :=
  [t3 ||| toByte (r >>> 12), tx ||| (toByte (r >>> 6) &&& maskx), tx ||| (toByte r &&& maskx)]

/-- The function `utf8.EncodeRune` on a non-negative rune value: the UTF-8
encoding of the code point `r`.  The conversion `string(b)` of a byte `b`
is `EncodeRune b`. -/
def EncodeRune (r : Nat) : Bytes :=
  if r ≤ rune1Max then [toByte r]
  else if r ≤ rune2Max then [t2 ||| toByte (r >>> 6), tx ||| (toByte r &&& maskx)]
  else if r > MaxRune ∨ (surrogateMin ≤ r ∧ r ≤ surrogateMax) then encode3 RuneError
  else if r ≤ rune3Max then encode3 r
  else [t4 ||| toByte (r >>> 18), tx ||| (toByte (r >>> 12) &&& maskx),
        tx ||| (toByte (r >>> 6) &&& maskx), tx ||| (toByte r &&& maskx)]

/-! ## `filereader/helper.go` -/

/-- The method `appendLinestoResult`: starting from the empty string, append
`string(reversedBytes[i])` for each index in turn. -/
def appendLinestoResult (reversedBytes : Bytes) : Bytes :=
  reversedBytes.foldl (fun result b => result ++ EncodeRune b) []

/-- The copy loop of `reverseResult`: `i` runs from `len - 1` down to `0`
and `fileLines[i]` is stored at the next free index of the output. -/
def reverseLoop (fileLines : List Bytes) : Nat → List Bytes → List Bytes
  | 0, reverseFileLines => reverseFileLines
  | i + 1, reverseFileLines =>
      reverseLoop fileLines i (reverseFileLines ++ [fileLines.getD i []])

/-- The method `reverseResult`. -/
def reverseResult (fileLines : List Bytes) : List Bytes :=
  if fileLines.length = 1 then fileLines
  else reverseLoop fileLines fileLines.length []

/-! ## `filereader/filereader.go`: `ReadLast10Lines` -/

/-- The backward scan of `ReadLast10Lines`.  The counter is carried as
`n = filePosition + 1` (it starts at `fileSize` and falls by one per round),
so the recursion is structural and the loop is total.  The result is the
triple `(filePosition, fileLines, reverseBytes)` at loop exit.  A round at
`filePosition = -1` can only be entered when `lastByte` is negative; there
`file.Seek` fails and the method returns the error. -/
def readLoop (data : Bytes) (lastByte : Int) :
    Nat → List Bytes → Bytes → Except IOError (Int × List Bytes × Bytes)
  | 0, fileLines, reverseBytes =>
      if (-1 : Int) ≥ lastByte ∧ fileLines.length < 10 then
        Except.error IOError.invalidSeek
      else Except.ok (-1, fileLines, reverseBytes)
  | n + 1, fileLines, reverseBytes =>
      if (n : Int) ≥ lastByte ∧ fileLines.length < 10 then
        match data.get? n with
        | none => Except.error IOError.eof
        | some b =>
            if b = 10 then
              readLoop data lastByte n (fileLines ++ [appendLinestoResult reverseBytes]) []
            else
              readLoop data lastByte n fileLines (b :: reverseBytes)
      else Except.ok ((n : Int), fileLines, reverseBytes)

/-- The method `ReadLast10Lines`: the returned lines (or the error) and the
reader after the call.  `lastByte` is assigned only when the loop did not
return an error.  `file.Stat` on the opened file is taken to succeed, and
file sizes to lie within `int64`. -/
def ReadLast10Lines (fs : FS) (f : FileReader) : Except IOError (List Bytes) × FileReader :=
  match fs f.filePath with
  | none => (Except.error IOError.notExist, f)
  | some data =>
      let fileSize : Int := data.length
      match readLoop data f.lastByte data.length [] [] with
      | Except.error err => (Except.error err, f)
      | Except.ok (filePosition, fileLines, reverseBytes) =>
          let fileLines1 :=
            if fileLines.length < 10 ∧ filePosition < 0 then
              fileLines ++ [appendLinestoResult reverseBytes]
            else fileLines
          (Except.ok (reverseResult fileLines1), { f with lastByte := fileSize })

/-! ## `bufio`: the scanner behind `ReadNewLines` -/

/-- The constant `bufio.MaxScanTokenSize`, the largest size the scanner's
buffer grows to. -/
def MaxScanTokenSize : Nat := 64 * 1024

/-- The function `bytes.IndexByte`: index of the first `c`, if any. -/
def IndexByte : Bytes → Nat → Option Nat
  | [], _ => none
  | b :: rest, c => if b = c then some 0 else (IndexByte rest c).map (· + 1)

/-- The helper `dropCR` of `bufio`: drop one trailing carriage return. -/
def dropCR (data : Bytes) : Bytes :=
  if data.length > 0 ∧ data.getLast? = some 13 then data.dropLast else data

/-- The split function `bufio.ScanLines`: `(advance, token)`, with token
`none` for Go's `nil` (no token yet; at end of input, no token left). -/
def ScanLines (data : Bytes) (atEOF : Bool) : Nat × Option Bytes :=
  if atEOF ∧ data.length = 0 then (0, none)
  else
    match IndexByte data 10 with
    | some i => (i + 1, some (dropCR (data.take i)))
    | none => if atEOF then (data.length, some (dropCR data)) else (0, none)

/-- One call of `Scanner.Scan` with the split function `ScanLines`, on the
input not consumed yet: `some (token, remaining input)` when it returns true,
`none` when it returns false.  The scanner shows the split function a
growing prefix of the unconsumed input that never exceeds `MaxScanTokenSize`
bytes, and sets `atEOF` once a read into free buffer space has met the end of
the file; with a full buffer of maximal size and no token it stops with
`ErrTooLong`, which `ReadNewLines` never inspects. -/
def Scan (input : Bytes) : Option (Bytes × Bytes) :=
  let window := input.take MaxScanTokenSize
  let atEOF := decide (input.length < MaxScanTokenSize)
  match ScanLines window atEOF with
  | (_, none) => none
  | (advance, some token) => some (token, input.drop advance)

/-- The loop `for fileScanner.Scan() { fileLines = append(fileLines, fileScanner.Text()) }`.
Every successful `Scan` consumes at least one byte, so `input.length + 1`
rounds always reach the `Scan` that returns false. -/
def scanLoop : Nat → Bytes → List Bytes → List Bytes
  | 0, _, fileLines => fileLines
  | fuel + 1, input, fileLines =>
      match Scan input with
      | none => fileLines
      | some (token, rest) => scanLoop fuel rest (fileLines ++ [token])

/-- The outcome of `file.Seek(offset, io.SeekStart)`: true when the file
system accepts the offset.  A negative offset is refused; an offset up to
`maxOffset`, the largest offset of the file system holding the file, is
accepted, also past the end of the file; an offset within the file is
accepted, the file being there. -/
def seekAccepted (maxOffset : Nat) (data : Bytes) (offset : Int) : Bool :=
  decide (0 ≤ offset ∧ (offset ≤ (maxOffset : Int) ∨ offset ≤ (data.length : Int)))

/-- The largest offset of an ext4 file system with 4 KiB blocks (16 TiB less
one block), the value taken in the concrete cases below. -/
def ext4MaxOffset : Nat := 17592186040320

/-- The method `ReadNewLines`.  The error of `file.Seek` is discarded by the
code: when the file system refuses `lastByte` the read position stays at 0
and the whole file is scanned; a position past the end of the file that the
file system accepts reads nothing.  `file.Stat` on the opened file is taken
to succeed. -/
def ReadNewLines (maxOffset : Nat) (fs : FS) (f : FileReader) :
    Except IOError (List Bytes) × FileReader :=
  match fs f.filePath with
  | none => (Except.error IOError.notExist, f)
  | some data =>
      let size : Int := data.length
      let offset : Nat := if seekAccepted maxOffset data f.lastByte then f.lastByte.toNat else 0
      let input := data.drop offset
      let fileLines := scanLoop (input.length + 1) input []
      (Except.ok fileLines, { f with lastByte := size })

/-! ## `strings.Join` and `websocket/utils/utils.go` -/

/-- The function `strings.Join`. -/
def Join (elems : List Bytes) (sep : Bytes) : Bytes :=
  match elems with
  | [] => []
  | [e] => e
  | e :: rest => rest.foldl (fun b s => b ++ sep ++ s) e

/-- A connection `*websocket.Conn`, known by its identity. -/
abbrev Conn := Nat

/-- The package state of `utils` and what the connections have seen:
`connectedClients` is the key set of the map of that name (in the order one
`range` over it visits the keys), `writes` records every `WriteMessage` call
with its payload and whether it succeeded, `closed` every `Close` call. -/
structure Hub where
  connectedClients : List Conn
  writes : List (Conn × Bytes × Bool)
  closed : List Conn
  deriving DecidableEq, Repr

/-- The function `addClient`: `connectedClients[conn] = true`. -/
def addClient (h : Hub) (conn : Conn) : Hub :=
  { h with connectedClients :=
      if conn ∈ h.connectedClients then h.connectedClients
      else h.connectedClients ++ [conn] }

/-- The function `removeClient`: `delete(connectedClients, conn)`. -/
def removeClient (h : Hub) (conn : Conn) : Hub :=
  { h with connectedClients := h.connectedClients.filter (fun c => c ≠ conn) }

/-- The call `conn.WriteMessage(websocket.TextMessage, data)`; the transport
decides through `writeFails` whether the write returns an error. -/
def WriteMessage (writeFails : Conn → Bool) (h : Hub) (conn : Conn) (data : Bytes) :
    Hub × Bool :=
  ({ h with writes := h.writes ++ [(conn, data, !(writeFails conn))] }, writeFails conn)

/-- The call `conn.Close()`. -/
def Close (h : Hub) (conn : Conn) : Hub :=
  { h with closed := h.closed ++ [conn] }

/-- The `range` loop of `BroadcastMessageToConnectedClients` over the keys
the map held when the loop began; a key deleted before its turn is not
visited, as Go specifies for a deletion during iteration. -/
def broadcastLoop (writeFails : Conn → Bool) (latestData : List Bytes) :
    List Conn → Hub → Hub
  | [], h => h
  | client :: rest, h =>
      if client ∈ h.connectedClients then
        let strData := Join latestData [10]
        match WriteMessage writeFails h client strData with
        | (h1, true) => broadcastLoop writeFails latestData rest (Close (removeClient h1 client) client)
        | (h1, false) => broadcastLoop writeFails latestData rest h1
      else broadcastLoop writeFails latestData rest h

/-- The function `BroadcastMessageToConnectedClients`, run on its own. -/
def BroadcastMessageToConnectedClients (writeFails : Conn → Bool) (h : Hub)
    (latestData : List Bytes) : Hub :=
  broadcastLoop writeFails latestData h.connectedClients h

/-- The function `BroadcastMessageToNewClient`. -/
def BroadcastMessageToNewClient (writeFails : Conn → Bool) (h : Hub) (client : Conn)
    (logs : List Bytes) : Hub :=
  let logData := Join logs [10]
  match WriteMessage writeFails h client logData with
  | (h1, true) => Close h1 client
  | (h1, false) => addClient h1 client

deriving instance DecidableEq for Except

/-! ## Shapes of file content used in the statements -/

/-- The file content made of the given lines, each followed by a newline. -/
def terminated (lines : List Bytes) : Bytes :=
  lines.flatMap (fun l => l ++ [10])

/-! ## Helper lemmas: byte conversion and list reversal -/

theorem EncodeRune_ascii (r : Nat) (h : r < 128) : EncodeRune r = [r] := by
  have h1 : r ≤ rune1Max := by unfold rune1Max; omega
  have h2 : r % 256 = r := Nat.mod_eq_of_lt (by omega)
  simp [EncodeRune, h1, toByte, h2]

theorem EncodeRune_length_pos (r : Nat) : 1 ≤ (EncodeRune r).length := by
  unfold EncodeRune encode3
  split_ifs <;> simp

theorem EncodeRune_two_bytes (r : Nat) (h1 : 128 ≤ r) (h2 : r < 2048) :
    EncodeRune r = [t2 ||| toByte (r >>> 6), tx ||| (toByte r &&& maskx)] := by
  have h3 : ¬ r ≤ rune1Max := by unfold rune1Max; omega
  have h4 : r ≤ rune2Max := by unfold rune2Max; omega
  simp [EncodeRune, h3, h4]

theorem EncodeRune_length_gt (r : Nat) (h : 128 ≤ r) : 2 ≤ (EncodeRune r).length := by
  have h3 : ¬ r ≤ rune1Max := by unfold rune1Max; omega
  unfold EncodeRune encode3
  simp only [h3, if_false]
  split_ifs <;> simp

theorem appendLinestoResult_eq_flatMap (b : Bytes) :
    appendLinestoResult b = b.flatMap EncodeRune := by
  unfold appendLinestoResult
  exact (List.flatMap_eq_foldl EncodeRune b).symm

theorem appendLinestoResult_ascii (b : Bytes) (h : ∀ x ∈ b, x < 128) :
    appendLinestoResult b = b := by
  rw [appendLinestoResult_eq_flatMap]
  induction b with
  | nil => rfl
  | cons x xs ih =>
      have hx : x < 128 := h x (List.mem_cons_self x xs)
      have hxs : ∀ y ∈ xs, y < 128 := fun y hy => h y (List.mem_cons_of_mem x hy)
      rw [List.flatMap_cons, EncodeRune_ascii x hx, ih hxs]
      rfl

theorem appendLinestoResult_length_ge (b : Bytes) :
    b.length ≤ (appendLinestoResult b).length := by
  rw [appendLinestoResult_eq_flatMap]
  induction b with
  | nil => simp
  | cons x xs ih =>
      have := EncodeRune_length_pos x
      simp only [List.flatMap_cons, List.length_append, List.length_cons]
      omega

theorem appendLinestoResult_length_gt (b : Bytes) (x : Nat) (hx : x ∈ b) (h : 128 ≤ x) :
    b.length < (appendLinestoResult b).length := by
  induction b with
  | nil => cases hx
  | cons y ys ih =>
      have hge := appendLinestoResult_length_ge ys
      rw [appendLinestoResult_eq_flatMap] at hge ih ⊢
      simp only [List.flatMap_cons, List.length_append, List.length_cons]
      rcases List.mem_cons.mp hx with hxy | hxy
      · subst hxy
        have := EncodeRune_length_gt x h
        omega
      · have := EncodeRune_length_pos y
        have := ih hxy
        omega

theorem reverseLoop_eq (l : List Bytes) (i : Nat) (acc : List Bytes) (hi : i ≤ l.length) :
    reverseLoop l i acc = acc ++ (l.take i).reverse := by
  induction i generalizing acc with
  | zero => simp [reverseLoop]
  | succ i ih =>
      have hlt : i < l.length := hi
      have hget : l.getD i [] = l[i] := by
        simp [List.getD, List.getElem?_eq_getElem hlt]
      have htake : l.take (i + 1) = l.take i ++ [l[i]] := by
        rw [List.take_succ, List.getElem?_eq_getElem hlt]
        rfl
      rw [reverseLoop, ih _ (Nat.le_of_lt hlt), htake, hget, List.reverse_append]
      simp

theorem reverseResult_eq (l : List Bytes) : reverseResult l = l.reverse := by
  unfold reverseResult
  split_ifs with h
  · match l, h with
    | [a], _ => rfl
  · rw [reverseLoop_eq l l.length [] (Nat.le_refl _)]
    simp

/-! ## Helper lemmas: the backward scan -/

theorem intercalate_cons_cons (sep a b : Bytes) (l : List Bytes) :
    List.intercalate sep (a :: b :: l) = a ++ sep ++ List.intercalate sep (b :: l) := by
  simp [List.intercalate, List.intersperse]

theorem intercalate_append_singleton (sep : Bytes) (l : List Bytes) (s : Bytes) (hl : l ≠ []) :
    List.intercalate sep (l ++ [s]) = List.intercalate sep l ++ sep ++ s := by
  induction l with
  | nil => exact absurd rfl hl
  | cons a t ih =>
      cases t with
      | nil => simp [List.intercalate, List.intersperse]
      | cons b t2 =>
          have ih2 := ih (List.cons_ne_nil b t2)
          rw [List.cons_append, List.cons_append, intercalate_cons_cons,
            intercalate_cons_cons, ← List.cons_append, ih2]
          simp

theorem readLoop_full (data : Bytes) (lastByte : Int) (n : Nat) (fl : List Bytes) (rb : Bytes)
    (hfl : 10 ≤ fl.length) :
    readLoop data lastByte n fl rb = Except.ok ((n : Int) - 1, fl, rb) := by
  have hnot : ¬ fl.length < 10 := by omega
  cases n with
  | zero => simp [readLoop, hnot]
  | succ m => simp [readLoop, hnot]

theorem readLoop_start (data : Bytes) (fl : List Bytes) (rb : Bytes) :
    readLoop data 0 0 fl rb = Except.ok (-1, fl, rb) := by
  simp [readLoop]

theorem readLoop_newline (before after : Bytes) (fl : List Bytes) (rb : Bytes)
    (hfl : fl.length < 10) :
    readLoop (before ++ 10 :: after) 0 (before.length + 1) fl rb =
      readLoop (before ++ 10 :: after) 0 before.length (fl ++ [appendLinestoResult rb]) [] := by
  have hget : (before ++ 10 :: after).get? before.length = some 10 := by
    rw [List.get?_eq_getElem?, List.getElem?_append_right (Nat.le_refl _)]
    simp
  rw [readLoop]
  simp only [hget]
  simp [hfl]

theorem readLoop_segment (before s after : Bytes) (fl : List Bytes) (rb : Bytes)
    (hs : ∀ x ∈ s, x ≠ 10) (hfl : fl.length < 10) :
    readLoop (before ++ s ++ after) 0 (before.length + s.length) fl rb =
      readLoop (before ++ s ++ after) 0 before.length fl (s ++ rb) := by
  induction s using List.reverseRecOn generalizing after rb with
  | nil => simp
  | append_singleton t x ih =>
      have hx : x ≠ 10 := hs x (by simp)
      have ht : ∀ y ∈ t, y ≠ 10 := fun y hy => hs y (by simp [hy])
      have hdata : before ++ (t ++ [x]) ++ after = before ++ t ++ x :: after := by simp
      have hlen : before.length + (t ++ [x]).length = (before.length + t.length) + 1 := by
        simp; omega
      have hget : (before ++ t ++ x :: after).get? (before.length + t.length) = some x := by
        rw [← List.length_append, List.get?_eq_getElem?,
          List.getElem?_append_right (Nat.le_refl _)]
        simp
      rw [hdata, hlen, readLoop]
      simp only [hget]
      have hcond : ((before.length + t.length : Nat) : Int) ≥ 0 ∧ fl.length < 10 :=
        ⟨Int.ofNat_nonneg _, hfl⟩
      rw [if_pos hcond, if_neg hx, ih (x :: after) (x :: rb) ht]
      simp

theorem readLoop_segments (rs : List Bytes) (hne : rs ≠ [])
    (hs : ∀ s ∈ rs, ∀ x ∈ s, x ≠ 10) (after : Bytes) (fl : List Bytes)
    (hfl : fl.length ≤ 10) :
    ∃ pos fl1 rb1,
      readLoop (List.intercalate [10] rs.reverse ++ after) 0
          (List.intercalate [10] rs.reverse).length fl [] = Except.ok (pos, fl1, rb1) ∧
      (if fl1.length < 10 ∧ pos < 0 then fl1 ++ [appendLinestoResult rb1] else fl1) =
        fl ++ (rs.take (10 - fl.length)).map appendLinestoResult := by
  induction rs generalizing after fl with
  | nil => exact absurd rfl hne
  | cons s rest ih =>
      by_cases hten : fl.length = 10
      · refine ⟨_, fl, [], readLoop_full _ _ _ _ _ (by omega), ?_⟩
        simp [hten]
      · have hlt : fl.length < 10 := by omega
        obtain ⟨k, hk⟩ : ∃ k, 10 - fl.length = k + 1 := ⟨9 - fl.length, by omega⟩
        cases rest with
        | nil =>
            refine ⟨-1, fl, s, ?_, ?_⟩
            · have h1 := readLoop_segment [] s after fl [] (fun x hx => hs s (by simp) x hx) hlt
              simp only [List.nil_append, List.length_nil, Nat.zero_add, List.append_nil] at h1
              simp only [List.reverse_cons, List.reverse_nil, List.nil_append,
                List.intercalate, List.intersperse, List.flatten_cons, List.flatten_nil,
                List.append_nil]
              rw [h1, readLoop_start]
            · simp [hlt, hk]
        | cons r rest2 =>
            have hne2 : (r :: rest2) ≠ [] := List.cons_ne_nil r rest2
            have hs2 : ∀ t ∈ r :: rest2, ∀ x ∈ t, x ≠ 10 :=
              fun t ht => hs t (List.mem_cons_of_mem s ht)
            have hsplit : List.intercalate [10] (s :: r :: rest2).reverse =
                List.intercalate [10] (r :: rest2).reverse ++ [10] ++ s := by
              rw [List.reverse_cons]
              exact intercalate_append_singleton [10] _ s (by simp)
            obtain ⟨pos, fl1, rb1, hrun, hfin⟩ :=
              ih hne2 hs2 (10 :: (s ++ after)) (fl ++ [appendLinestoResult s])
                (by simp; omega)
            refine ⟨pos, fl1, rb1, ?_, ?_⟩
            · have h1 := readLoop_segment (List.intercalate [10] (r :: rest2).reverse ++ [10])
                s after fl [] (fun x hx => hs s (by simp) x hx) hlt
              have h2 := readLoop_newline (List.intercalate [10] (r :: rest2).reverse)
                (s ++ after) fl s hlt
              have hd : List.intercalate [10] (r :: rest2).reverse ++ [10] ++ s ++ after =
                  List.intercalate [10] (r :: rest2).reverse ++ 10 :: (s ++ after) := by simp
              rw [hsplit]
              simp only [List.length_append, List.length_singleton, List.append_nil] at h1 ⊢
              rw [h1, hd, h2]
              exact hrun
            · rw [hfin]
              have hk2 : 10 - (fl ++ [appendLinestoResult s]).length = k := by
                simp; omega
              rw [hk2, hk]
              simp

theorem ReadLast10Lines_segments (fs : FS) (path : String) (segs : List Bytes)
    (hne : segs ≠ []) (hs : ∀ s ∈ segs, ∀ x ∈ s, x ≠ 10)
    (hfile : fs path = some (List.intercalate [10] segs)) :
    ReadLast10Lines fs (NewFileReader path) =
      (Except.ok ((segs.drop (segs.length - 10)).map appendLinestoResult),
        { filePath := path, lastByte := ((List.intercalate [10] segs).length : Int) }) := by
  have hne2 : segs.reverse ≠ [] := by simpa using hne
  have hs2 : ∀ s ∈ segs.reverse, ∀ x ∈ s, x ≠ 10 := fun s h => hs s (List.mem_reverse.mp h)
  obtain ⟨pos, fl1, rb1, hrun, hfin⟩ :=
    readLoop_segments segs.reverse hne2 hs2 [] [] (by simp)
  simp only [List.reverse_reverse, List.append_nil, List.length_nil, Nat.sub_zero,
    List.nil_append] at hrun hfin
  unfold ReadLast10Lines NewFileReader
  simp only [hfile, hrun, hfin, reverseResult_eq]
  rw [← List.map_reverse, List.take_reverse, List.reverse_reverse]

/-! ## Helper lemmas: the forward scanner -/

theorem IndexByte_none (l : Bytes) (c : Nat) (h : ∀ x ∈ l, x ≠ c) : IndexByte l c = none := by
  induction l with
  | nil => rfl
  | cons a t ih =>
      have ha : a ≠ c := h a (List.mem_cons_self a t)
      have ht : ∀ x ∈ t, x ≠ c := fun x hx => h x (List.mem_cons_of_mem a hx)
      simp [IndexByte, ha, ih ht]

theorem IndexByte_append (l rest : Bytes) (c : Nat) (h : ∀ x ∈ l, x ≠ c) :
    IndexByte (l ++ c :: rest) c = some l.length := by
  induction l with
  | nil => simp [IndexByte]
  | cons a t ih =>
      have ha : a ≠ c := h a (List.mem_cons_self a t)
      have ht : ∀ x ∈ t, x ≠ c := fun x hx => h x (List.mem_cons_of_mem a hx)
      simp [IndexByte, ha, ih ht]

theorem Scan_nil : Scan [] = none := by
  simp [Scan, ScanLines, MaxScanTokenSize]

theorem Scan_line (l rest : Bytes) (h : ∀ x ∈ l, x ≠ 10) (hlen : l.length < MaxScanTokenSize) :
    Scan (l ++ 10 :: rest) = some (dropCR l, rest) := by
  obtain ⟨k, hk⟩ : ∃ k, MaxScanTokenSize - l.length = k + 1 :=
    ⟨MaxScanTokenSize - l.length - 1, by omega⟩
  have hwin : (l ++ 10 :: rest).take MaxScanTokenSize = l ++ 10 :: rest.take k := by
    rw [List.take_append_eq_append_take, List.take_of_length_le (Nat.le_of_lt hlen), hk,
      List.take_succ_cons]
  have hidx := IndexByte_append l (rest.take k) 10 h
  have hdrop : (l ++ 10 :: rest).drop (l.length + 1) = rest := by
    have hsplit : l ++ 10 :: rest = (l ++ [10]) ++ rest := by simp
    rw [hsplit]
    exact List.drop_left' (by simp)
  simp only [Scan, hwin, ScanLines, hidx]
  simp [hdrop]

theorem Scan_final (t : Bytes) (hne : t ≠ []) (h : ∀ x ∈ t, x ≠ 10)
    (hlen : t.length < MaxScanTokenSize) :
    Scan t = some (dropCR t, []) := by
  have hwin : t.take MaxScanTokenSize = t := List.take_of_length_le (Nat.le_of_lt hlen)
  have hidx := IndexByte_none t 10 h
  have hpos : t.length ≠ 0 := fun h0 => hne (List.length_eq_zero.mp h0)
  simp only [Scan, hwin, ScanLines, hidx]
  simp [hlen, hpos, hne]

theorem terminated_cons (l : Bytes) (lines : List Bytes) :
    terminated (l :: lines) = l ++ 10 :: terminated lines := by
  simp [terminated]

theorem terminated_length_ge (lines : List Bytes) : lines.length ≤ (terminated lines).length := by
  induction lines with
  | nil => simp [terminated]
  | cons l t ih =>
      rw [terminated_cons]
      simp only [List.length_append, List.length_cons]
      omega

theorem scanLoop_lines (lines : List Bytes) (t : Bytes) (fuel : Nat) (acc : List Bytes)
    (hl : ∀ l ∈ lines, (∀ x ∈ l, x ≠ 10) ∧ l.length < MaxScanTokenSize)
    (ht : ∀ x ∈ t, x ≠ 10) (htlen : t.length < MaxScanTokenSize)
    (hfuel : lines.length + t.length + 1 ≤ fuel) :
    scanLoop fuel (terminated lines ++ t) acc =
      acc ++ lines.map dropCR ++ (if t = [] then [] else [dropCR t]) := by
  induction lines generalizing fuel acc with
  | nil =>
      obtain ⟨f1, rfl⟩ : ∃ f1, fuel = f1 + 1 := ⟨fuel - 1, by omega⟩
      by_cases hnil : t = []
      · subst hnil
        simp [terminated, scanLoop, Scan_nil]
      · have hpos : 0 < t.length := List.length_pos.mpr hnil
        obtain ⟨f2, rfl⟩ : ∃ f2, f1 = f2 + 1 := ⟨f1 - 1, by simp at hfuel; omega⟩
        simp [terminated, scanLoop, Scan_final t hnil ht htlen, Scan_nil, hnil]
  | cons l rest ih =>
      obtain ⟨f1, rfl⟩ : ∃ f1, fuel = f1 + 1 := ⟨fuel - 1, by omega⟩
      have hl1 := hl l (List.mem_cons_self l rest)
      have hrest : ∀ m ∈ rest, (∀ x ∈ m, x ≠ 10) ∧ m.length < MaxScanTokenSize :=
        fun m hm => hl m (List.mem_cons_of_mem l hm)
      have hdata : terminated (l :: rest) ++ t = l ++ 10 :: (terminated rest ++ t) := by
        rw [terminated_cons]; simp
      rw [hdata, scanLoop, Scan_line l _ hl1.1 hl1.2]
      simp only
      rw [ih f1 (acc ++ [dropCR l]) hrest (by simp at hfuel; omega)]
      simp

/-! ## Helper lemmas: joining and broadcasting -/

theorem foldl_join (sep : Bytes) (rest : List Bytes) (acc : Bytes) :
    rest.foldl (fun b s => b ++ sep ++ s) acc = acc ++ rest.flatMap (fun s => sep ++ s) := by
  induction rest generalizing acc with
  | nil => simp
  | cons r t ih =>
      rw [List.foldl_cons, ih (acc ++ sep ++ r), List.flatMap_cons]
      simp

theorem intercalate_cons (sep e : Bytes) (rest : List Bytes) :
    List.intercalate sep (e :: rest) = e ++ rest.flatMap (fun s => sep ++ s) := by
  induction rest generalizing e with
  | nil => simp [List.intercalate, List.intersperse]
  | cons r t ih =>
      rw [intercalate_cons_cons, ih r]
      simp

theorem Join_eq_intercalate (elems : List Bytes) (sep : Bytes) :
    Join elems sep = List.intercalate sep elems := by
  match elems with
  | [] => simp [Join, List.intercalate, List.intersperse]
  | [e] => simp [Join, List.intercalate, List.intersperse]
  | e :: r :: rest =>
      rw [intercalate_cons]
      simp only [Join]
      exact foldl_join sep (r :: rest) e

theorem broadcastLoop_spec (writeFails : Conn → Bool) (latestData : List Bytes)
    (order : List Conn) (h : Hub) (hnd : order.Nodup)
    (hmem : ∀ c ∈ order, c ∈ h.connectedClients) :
    broadcastLoop writeFails latestData order h =
      { connectedClients :=
          h.connectedClients.filter (fun c => !(decide (c ∈ order) && writeFails c)),
        writes := h.writes ++ order.map (fun c => (c, Join latestData [10], !(writeFails c))),
        closed := h.closed ++ order.filter writeFails } := by
  induction order generalizing h with
  | nil => simp [broadcastLoop]
  | cons client rest ih =>
      have hin : client ∈ h.connectedClients := hmem client (List.mem_cons_self client rest)
      have hnd2 : rest.Nodup := (List.nodup_cons.mp hnd).2
      have hnotin : client ∉ rest := (List.nodup_cons.mp hnd).1
      rw [broadcastLoop, if_pos hin]
      cases hw : writeFails client with
      | true =>
          simp only [WriteMessage, hw]
          rw [ih _ hnd2]
          · simp only [Close, removeClient, List.filter_filter, List.map_cons, hw,
              List.filter_cons_of_pos, List.append_assoc, List.singleton_append, Bool.not_true]
            congr 1
            apply List.filter_congr
            intro c _
            by_cases hc : c = client
            · subst hc; simp [hw]
            · simp [hc]
          · intro c hc
            have hne : c ≠ client := fun heq => hnotin (heq ▸ hc)
            simp [Close, removeClient, hne, hmem c (List.mem_cons_of_mem client hc)]
      | false =>
          simp only [WriteMessage, hw]
          rw [ih _ hnd2]
          · simp only [List.map_cons, hw, List.append_assoc, List.singleton_append,
              Bool.not_false]
            have hfil : (client :: rest).filter writeFails = rest.filter writeFails := by
              simp [List.filter_cons, hw]
            rw [hfil]
            congr 1
            apply List.filter_congr
            intro c _
            by_cases hc : c = client
            · subst hc; simp [hw]
            · simp [hc]
          · intro c hc
            exact hmem c (List.mem_cons_of_mem client hc)

theorem Broadcast_spec (writeFails : Conn → Bool) (h : Hub) (latestData : List Bytes)
    (hnd : h.connectedClients.Nodup) :
    BroadcastMessageToConnectedClients writeFails h latestData =
      { connectedClients := h.connectedClients.filter (fun c => !(writeFails c)),
        writes := h.writes ++
          h.connectedClients.map (fun c => (c, List.intercalate [10] latestData, !(writeFails c))),
        closed := h.closed ++ h.connectedClients.filter writeFails } := by
  unfold BroadcastMessageToConnectedClients
  rw [broadcastLoop_spec writeFails latestData h.connectedClients h hnd (fun c hc => hc),
    Join_eq_intercalate]
  congr 1
  apply List.filter_congr
  intro c hc
  simp [hc]

theorem dropCR_eq_self (l : Bytes) (h : l.getLast? ≠ some 13) : dropCR l = l := by
  simp [dropCR, h]

theorem map_dropCR_eq_self (lines : List Bytes) (h : ∀ l ∈ lines, l.getLast? ≠ some 13) :
    lines.map dropCR = lines := by
  induction lines with
  | nil => rfl
  | cons l t ih =>
      rw [List.map_cons, dropCR_eq_self l (h l (List.mem_cons_self l t)),
        ih (fun m hm => h m (List.mem_cons_of_mem l hm))]

theorem ReadNewLines_appended (maxOffset : Nat) (fs : FS) (r : FileReader) (before : Bytes)
    (lines : List Bytes) (t : Bytes)
    (hcur : r.lastByte = (before.length : Int))
    (hfile : fs r.filePath = some (before ++ (terminated lines ++ t)))
    (hl : ∀ l ∈ lines, (∀ x ∈ l, x ≠ 10) ∧ l.length < MaxScanTokenSize)
    (ht : ∀ x ∈ t, x ≠ 10) (htlen : t.length < MaxScanTokenSize) :
    ReadNewLines maxOffset fs r =
      (Except.ok (lines.map dropCR ++ (if t = [] then [] else [dropCR t])),
        { filePath := r.filePath,
          lastByte := ((before ++ (terminated lines ++ t)).length : Int) }) := by
  have hfuel : lines.length + t.length + 1 ≤ (terminated lines ++ t).length + 1 := by
    have := terminated_length_ge lines
    simp only [List.length_append]
    omega
  have hseek : seekAccepted maxOffset (before ++ (terminated lines ++ t))
      (before.length : Int) = true := by
    unfold seekAccepted
    simp only [List.length_append, decide_eq_true_eq]
    omega
  unfold ReadNewLines
  simp only [hfile, hcur, hseek, if_true, Int.toNat_ofNat, List.drop_left,
    scanLoop_lines lines t _ [] hl ht htlen hfuel, List.nil_append]

theorem ReadLast10Lines_cursor (fs : FS) (r : FileReader) (data : Bytes)
    (lines : List Bytes) (hfile : fs r.filePath = some data)
    (hok : (ReadLast10Lines fs r).1 = Except.ok lines) :
    (ReadLast10Lines fs r).2 = { filePath := r.filePath, lastByte := (data.length : Int) } := by
  unfold ReadLast10Lines at hok ⊢
  simp only [hfile] at hok ⊢
  cases hrun : readLoop data r.lastByte data.length [] [] with
  | error e => simp [hrun] at hok
  | ok st => rfl

theorem terminated_eq_intercalate (lines : List Bytes) (hne : lines ≠ []) :
    terminated lines = List.intercalate [10] (lines ++ [[]]) := by
  induction lines with
  | nil => exact absurd rfl hne
  | cons l t ih =>
      cases t with
      | nil => simp [terminated, List.intercalate, List.intersperse]
      | cons m t2 =>
          rw [terminated_cons, ih (List.cons_ne_nil m t2)]
          show l ++ 10 :: List.intercalate [10] (m :: (t2 ++ [[]])) =
            List.intercalate [10] (l :: m :: (t2 ++ [[]]))
          rw [intercalate_cons_cons]
          simp

/-- For every file of `K ≥ 1` newline-terminated lines the backward scan
returns the last `min K 9` lines followed by one empty string. -/
theorem ReadLast10Lines_terminated (fs : FS) (path : String) (lines : List Bytes)
    (hne : lines ≠ []) (hs : ∀ l ∈ lines, ∀ x ∈ l, x ≠ 10)
    (hfile : fs path = some (terminated lines)) :
    (ReadLast10Lines fs (NewFileReader path)).1 =
      Except.ok ((lines.drop (lines.length - 9)).map appendLinestoResult ++ [[]]) := by
  have hs2 : ∀ s ∈ lines ++ [[]], ∀ x ∈ s, x ≠ 10 := by
    intro s hmem x hx
    rcases List.mem_append.mp hmem with h1 | h1
    · exact hs s h1 x hx
    · simp at h1; subst h1; cases hx
  rw [terminated_eq_intercalate lines hne] at hfile
  rw [ReadLast10Lines_segments fs path (lines ++ [[]]) (by simp) hs2 hfile]
  have hlen : (lines ++ [[]]).length - 10 = lines.length - 9 := by simp
  have hle : lines.length - 9 ≤ lines.length := Nat.sub_le _ _
  simp only [hlen]
  rw [List.drop_append_of_le_length hle]
  simp [appendLinestoResult]

/-! ## Totality of the two scans -/

/-- With a cursor that is not negative the backward scan never fails. -/
theorem readLoop_ok (data : Bytes) (lastByte : Int) (hpos : 0 ≤ lastByte) (n : Nat)
    (hn : n ≤ data.length) (fl : List Bytes) (rb : Bytes) :
    ∃ st, readLoop data lastByte n fl rb = Except.ok st := by
  induction n generalizing fl rb with
  | zero =>
      have hnot : ¬ ((-1 : Int) ≥ lastByte ∧ fl.length < 10) := by
        intro h
        omega
      exact ⟨_, by rw [readLoop, if_neg hnot]⟩
  | succ m ih =>
      have hlt : m < data.length := hn
      have hget : data.get? m = some data[m] := by
        rw [List.get?_eq_getElem?, List.getElem?_eq_getElem hlt]
      rw [readLoop]
      split_ifs with hc
      · simp only [hget]
        split_ifs
        · exact ih (Nat.le_of_lt hlt) _ _
        · exact ih (Nat.le_of_lt hlt) _ _
      · exact ⟨_, rfl⟩

/-- On an existing file and with a cursor that is not negative,
`ReadLast10Lines` returns lines, not an error. -/
theorem ReadLast10Lines_ok (fs : FS) (r : FileReader) (data : Bytes)
    (hfile : fs r.filePath = some data) (hpos : 0 ≤ r.lastByte) :
    ∃ lines, (ReadLast10Lines fs r).1 = Except.ok lines := by
  obtain ⟨st, hst⟩ := readLoop_ok data r.lastByte hpos data.length (Nat.le_refl _) [] []
  unfold ReadLast10Lines
  simp only [hfile, hst]
  exact ⟨_, rfl⟩

theorem IndexByte_lt (l : Bytes) (c i : Nat) (h : IndexByte l c = some i) : i < l.length := by
  induction l generalizing i with
  | nil => simp [IndexByte] at h
  | cons a t ih =>
      rw [IndexByte] at h
      split_ifs at h with hac
      · cases h
        simp
      · cases hrec : IndexByte t c with
        | none => simp [hrec] at h
        | some j =>
            simp [hrec] at h
            have := ih j hrec
            simp only [List.length_cons]
            omega

/-- A token returned by `ScanLines` comes with a positive advance within the
data. -/
theorem ScanLines_advance (data : Bytes) (atEOF : Bool) (advance : Nat) (token : Bytes)
    (h : ScanLines data atEOF = (advance, some token)) :
    0 < advance ∧ advance ≤ data.length := by
  unfold ScanLines at h
  by_cases h1 : atEOF = true ∧ data.length = 0
  · rw [if_pos h1] at h
    simp at h
  · rw [if_neg h1] at h
    cases hidx : IndexByte data 10 with
    | some i =>
        have hi := IndexByte_lt _ _ _ hidx
        simp only [hidx, Prod.mk.injEq] at h
        omega
    | none =>
        simp only [hidx] at h
        by_cases h2 : atEOF = true
        · rw [if_pos h2] at h
          simp only [Prod.mk.injEq] at h
          have hne : data.length ≠ 0 := fun h0 => h1 ⟨h2, h0⟩
          omega
        · rw [if_neg h2] at h
          simp at h

/-- A successful `Scan` consumes at least one byte. -/
theorem Scan_consumes (input token rest : Bytes) (h : Scan input = some (token, rest)) :
    rest.length < input.length := by
  have hwin : (input.take MaxScanTokenSize).length ≤ input.length := by
    rw [List.length_take]
    exact Nat.min_le_right _ _
  unfold Scan at h
  simp only at h
  cases hsl : ScanLines (input.take MaxScanTokenSize)
      (decide (input.length < MaxScanTokenSize)) with
  | mk advance tok =>
      cases tok with
      | none => simp [hsl] at h
      | some t =>
          have hadv := ScanLines_advance _ _ _ _ hsl
          simp only [hsl, Option.some.injEq, Prod.mk.injEq] at h
          rw [← h.2, List.length_drop]
          omega

/-- The loop over `Scan` does not depend on the number of rounds allowed
once that number exceeds the length of the input: the rounds given to it by
`ReadNewLines` always reach the `Scan` that returns false. -/
theorem scanLoop_fuel (fuel1 fuel2 : Nat) (input : Bytes) (acc : List Bytes)
    (h1 : input.length + 1 ≤ fuel1) (h2 : input.length + 1 ≤ fuel2) :
    scanLoop fuel1 input acc = scanLoop fuel2 input acc := by
  induction fuel1 generalizing fuel2 input acc with
  | zero => omega
  | succ f1 ih =>
      obtain ⟨f2, rfl⟩ : ∃ f2, fuel2 = f2 + 1 := ⟨fuel2 - 1, by omega⟩
      rw [scanLoop, scanLoop]
      cases hscan : Scan input with
      | none => rfl
      | some p =>
          obtain ⟨token, rest⟩ := p
          have hlt := Scan_consumes input token rest hscan
          exact ih f2 rest _ (by omega) (by omega)

/-! ## The claims -/

/-- C1 (the code at the failing input): for the file of the fifteen lines
`1` to `15`, each followed by a newline, `ReadLast10Lines` on a fresh reader
returns the nine lines `7` to `15` followed by an empty string, not the ten
lines `6` to `15`. -/
theorem C1_terminated_lines_give_trailing_empty_string :
    ReadLast10Lines
        (fun _ => some (terminated [[49], [50], [51], [52], [53], [54], [55], [56], [57],
          [49, 48], [49, 49], [49, 50], [49, 51], [49, 52], [49, 53]]))
        (NewFileReader "storage/logs.txt") =
      (Except.ok [[55], [56], [57], [49, 48], [49, 49], [49, 50], [49, 51], [49, 52],
          [49, 53], []],
        { filePath := "storage/logs.txt", lastByte := 36 }) := by
  decide

/-- C2: for a file of `K ≥ 1` ASCII segments without newline bytes, joined
by single newlines, the last segment non-empty and unterminated,
`ReadLast10Lines` on a fresh reader returns the last `min K 10` segments in
file order with the unterminated segment last, all `K` of them when
`K < 10`, and leaves the cursor at the file size. -/
theorem C2_unterminated_segments (fs : FS) (path : String) (segs : List Bytes)
    (hne : segs ≠ [])
    (hascii : ∀ s ∈ segs, ∀ x ∈ s, x < 128 ∧ x ≠ 10)
    (hlast : segs.getLast hne ≠ [])
    (hfile : fs path = some (List.intercalate [10] segs)) :
    ReadLast10Lines fs (NewFileReader path) =
        (Except.ok (segs.drop (segs.length - 10)),
          { filePath := path, lastByte := ((List.intercalate [10] segs).length : Int) }) ∧
      (segs.drop (segs.length - 10)).length = min segs.length 10 ∧
      (segs.drop (segs.length - 10)).getLast? = some (segs.getLast hne) ∧
      (segs.drop (segs.length - 10)).getLast? ≠ some [] ∧
      (segs.length < 10 → segs.drop (segs.length - 10) = segs) := by
  have hs : ∀ s ∈ segs, ∀ x ∈ s, x ≠ 10 := fun s hmem x hx => (hascii s hmem x hx).2
  have hmap : (segs.drop (segs.length - 10)).map appendLinestoResult =
      segs.drop (segs.length - 10) := by
    refine (List.map_congr_left ?_).trans (List.map_id _)
    intro s hmem
    exact appendLinestoResult_ascii s
      (fun x hx => (hascii s (List.mem_of_mem_drop hmem) x hx).1)
  have hpos : 0 < segs.length := List.length_pos.mpr hne
  have hget : (segs.drop (segs.length - 10)).getLast? = some (segs.getLast hne) := by
    rw [List.getLast?_drop, if_neg (by omega), List.getLast?_eq_getLast _ hne]
  refine ⟨?_, ?_, hget, ?_, ?_⟩
  · rw [ReadLast10Lines_segments fs path segs hne hs hfile, hmap]
  · rw [List.length_drop]; omega
  · rw [hget]
    intro heq
    exact hlast (Option.some.inj heq)
  · intro hlt
    have h0 : segs.length - 10 = 0 := by omega
    rw [h0, List.drop_zero]

/-- C2 at the file `a`, newline, `bc`: both segments are returned, `bc` last. -/
theorem C2_unterminated_segments_witness :
    ReadLast10Lines (fun _ => some (List.intercalate [10] [[97], [98, 99]]))
        (NewFileReader "storage/logs.txt") =
        (Except.ok (List.drop ([[97], [98, 99]].length - 10) [[97], [98, 99]]),
          { filePath := "storage/logs.txt",
            lastByte := ((List.intercalate [10] [[97], [98, 99]]).length : Int) }) ∧
      (List.drop ([[97], [98, 99]].length - 10) [[97], [98, 99]]).length =
        min [[97], [98, 99]].length 10 ∧
      (List.drop ([[97], [98, 99]].length - 10) [[97], [98, 99]]).getLast? =
        some ([[97], [98, 99]].getLast (by decide)) ∧
      (List.drop ([[97], [98, 99]].length - 10) [[97], [98, 99]]).getLast? ≠ some [] ∧
      ([[97], [98, 99]].length < 10 →
        List.drop ([[97], [98, 99]].length - 10) [[97], [98, 99]] = [[97], [98, 99]]) :=
  C2_unterminated_segments (fun _ => some (List.intercalate [10] [[97], [98, 99]]))
    "storage/logs.txt" [[97], [98, 99]] (by decide) (by decide) (by decide) rfl

/-- C3 (the code at the failing input): for an empty file `ReadLast10Lines`
on a fresh reader returns, without error, a sequence of length one holding
the empty string, not an empty sequence. -/
theorem C3_empty_file_gives_one_empty_string (path : String) :
    ReadLast10Lines (fun _ => some []) (NewFileReader path) =
        (Except.ok [[]], { filePath := path, lastByte := 0 }) ∧
      ([[]] : List Bytes).length = 1 := by
  constructor
  · rfl
  · rfl

/-- C4 (counterexample): the file holds the line `1`; `ReadLast10Lines`
sets the cursor to the size 2; the line `a\r` is appended with its newline;
`ReadNewLines` returns `a`, without the carriage return, not the appended
line. -/
theorem C4_counterexample_carriage_return :
    (ReadLast10Lines (fun _ => some [49, 10]) (NewFileReader "storage/logs.txt")).2.lastByte
        = 2 ∧
      (ReadNewLines ext4MaxOffset (fun _ => some ([49, 10] ++ terminated [[97, 13]]))
          (ReadLast10Lines (fun _ => some [49, 10]) (NewFileReader "storage/logs.txt")).2).1
        = Except.ok [[97]] ∧
      (ReadNewLines ext4MaxOffset (fun _ => some ([49, 10] ++ terminated [[97, 13]]))
          (ReadLast10Lines (fun _ => some [49, 10]) (NewFileReader "storage/logs.txt")).2).1
        ≠ Except.ok [[97, 13]] := by
  decide

/-- C4 (amended): after a successful `ReadLast10Lines` has set the cursor to
the file size, appending the lines `L`, each followed by a newline, where no
line holds a newline, ends in a carriage return or reaches 65536 bytes,
makes `ReadNewLines` return exactly `L` in order and set the cursor to the
new file size; a further `ReadNewLines` with no append in between returns
the empty sequence. -/
theorem C4_new_lines_after_append (maxOffset : Nat) (fs0 fs1 : FS) (r0 : FileReader) (file0 : Bytes)
    (lines0 L : List Bytes)
    (h0 : fs0 r0.filePath = some file0)
    (hok : (ReadLast10Lines fs0 r0).1 = Except.ok lines0)
    (h1 : fs1 r0.filePath = some (file0 ++ terminated L))
    (hL : ∀ l ∈ L, (∀ x ∈ l, x ≠ 10) ∧ l.length < MaxScanTokenSize ∧ l.getLast? ≠ some 13) :
    (ReadLast10Lines fs0 r0).2.lastByte = (file0.length : Int) ∧
      ReadNewLines maxOffset fs1 (ReadLast10Lines fs0 r0).2 =
        (Except.ok L,
          { filePath := r0.filePath, lastByte := ((file0 ++ terminated L).length : Int) }) ∧
      ReadNewLines maxOffset fs1 (ReadNewLines maxOffset fs1 (ReadLast10Lines fs0 r0).2).2 =
        (Except.ok [],
          { filePath := r0.filePath, lastByte := ((file0 ++ terminated L).length : Int) }) := by
  have hcur := ReadLast10Lines_cursor fs0 r0 file0 lines0 h0 hok
  have hl : ∀ l ∈ L, (∀ x ∈ l, x ≠ 10) ∧ l.length < MaxScanTokenSize :=
    fun l hl => ⟨(hL l hl).1, (hL l hl).2.1⟩
  have hcr : ∀ l ∈ L, l.getLast? ≠ some 13 := fun l hl => (hL l hl).2.2
  have hmax : ([] : Bytes).length < MaxScanTokenSize := by decide
  have hfirst := ReadNewLines_appended maxOffset fs1 (ReadLast10Lines fs0 r0).2 file0 L []
    (by rw [hcur]) (by rw [hcur]; simpa using h1) hl (by simp) hmax
  have hfirst2 : ReadNewLines maxOffset fs1 (ReadLast10Lines fs0 r0).2 =
      (Except.ok L,
        { filePath := r0.filePath, lastByte := ((file0 ++ terminated L).length : Int) }) := by
    rw [hfirst, map_dropCR_eq_self L hcr, hcur]
    simp
  refine ⟨by rw [hcur], hfirst2, ?_⟩
  rw [hfirst2]
  have hsecond := ReadNewLines_appended maxOffset fs1
    { filePath := r0.filePath, lastByte := ((file0 ++ terminated L).length : Int) }
    (file0 ++ terminated L) [] [] rfl (by simpa [terminated] using h1) (by simp) (by simp) hmax
  rw [hsecond]
  simp [terminated]

/-- C4 (amended) at the file `15` with its newline, to which `16` with its
newline is appended: `ReadNewLines` returns `16`, then nothing. -/
theorem C4_new_lines_after_append_witness :
    (ReadLast10Lines (fun _ => some (terminated [[49, 53]]))
        (NewFileReader "storage/logs.txt")).2.lastByte
        = ((terminated [[49, 53]]).length : Int) ∧
      ReadNewLines ext4MaxOffset (fun _ => some (terminated [[49, 53]] ++ terminated [[49, 54]]))
          (ReadLast10Lines (fun _ => some (terminated [[49, 53]]))
            (NewFileReader "storage/logs.txt")).2 =
        (Except.ok [[49, 54]],
          { filePath := (NewFileReader "storage/logs.txt").filePath,
            lastByte := ((terminated [[49, 53]] ++ terminated [[49, 54]]).length : Int) }) ∧
      ReadNewLines ext4MaxOffset (fun _ => some (terminated [[49, 53]] ++ terminated [[49, 54]]))
          (ReadNewLines ext4MaxOffset (fun _ => some (terminated [[49, 53]] ++ terminated [[49, 54]]))
            (ReadLast10Lines (fun _ => some (terminated [[49, 53]]))
              (NewFileReader "storage/logs.txt")).2).2 =
        (Except.ok [],
          { filePath := (NewFileReader "storage/logs.txt").filePath,
            lastByte := ((terminated [[49, 53]] ++ terminated [[49, 54]]).length : Int) }) :=
  C4_new_lines_after_append ext4MaxOffset (fun _ => some (terminated [[49, 53]]))
    (fun _ => some (terminated [[49, 53]] ++ terminated [[49, 54]]))
    (NewFileReader "storage/logs.txt") (terminated [[49, 53]]) [[49, 53], []] [[49, 54]]
    rfl (by decide) rfl (by decide)

/-- C5 (counterexample): with the content `x`, newline, `y` after the cursor,
`ReadNewLines` returns `x` and also the unterminated `y`, and moves the
cursor to the file size 3. -/
theorem C5_counterexample_unterminated_tail_returned :
    ReadNewLines ext4MaxOffset (fun _ => some [120, 10, 121]) (NewFileReader "storage/logs.txt") =
        (Except.ok [[120], [121]], { filePath := "storage/logs.txt", lastByte := 3 }) ∧
      ([121] : Bytes) ∈ [[120], [121]] := by
  decide

/-- C5 (amended): when the content from the cursor to the end of the file is
a sequence of newline-terminated records followed by a non-empty
unterminated run `t`, records and `t` free of newlines and shorter than
65536 bytes, `ReadNewLines` returns the records and then `t` as the last
element, each less one trailing carriage return, and moves the cursor to the
file size. -/
theorem C5_unterminated_tail_returned (maxOffset : Nat) (fs : FS) (r : FileReader) (before : Bytes)
    (records : List Bytes) (t : Bytes)
    (hcur : r.lastByte = (before.length : Int))
    (hfile : fs r.filePath = some (before ++ (terminated records ++ t)))
    (hrec : ∀ l ∈ records, (∀ x ∈ l, x ≠ 10) ∧ l.length < MaxScanTokenSize)
    (hne : t ≠ []) (ht : ∀ x ∈ t, x ≠ 10) (htlen : t.length < MaxScanTokenSize) :
    ReadNewLines maxOffset fs r =
        (Except.ok (records.map dropCR ++ [dropCR t]),
          { filePath := r.filePath,
            lastByte := ((before ++ (terminated records ++ t)).length : Int) }) ∧
      (records.map dropCR ++ [dropCR t]).getLast? = some (dropCR t) := by
  constructor
  · rw [ReadNewLines_appended maxOffset fs r before records t hcur hfile hrec ht htlen, if_neg hne]
  · simp

/-- C5 (amended) at the cursor 2 of the file `1`, newline, `x`, newline, `y`:
`ReadNewLines` returns `x` and `y`. -/
theorem C5_unterminated_tail_returned_witness :
    ReadNewLines ext4MaxOffset (fun _ => some ([49, 10] ++ (terminated [[120]] ++ [121])))
        { filePath := "storage/logs.txt", lastByte := 2 } =
        (Except.ok ([[120]].map dropCR ++ [dropCR [121]]),
          { filePath := "storage/logs.txt",
            lastByte := (([49, 10] ++ (terminated [[120]] ++ [121])).length : Int) }) ∧
      ([[120]].map dropCR ++ [dropCR [121]]).getLast? = some (dropCR [121]) :=
  C5_unterminated_tail_returned ext4MaxOffset (fun _ => some ([49, 10] ++ (terminated [[120]] ++ [121])))
    { filePath := "storage/logs.txt", lastByte := 2 } [49, 10] [[120]] [121]
    rfl rfl (by decide) (by decide) (by decide) (by decide)

/-- A cursor the file system refuses: the error of `file.Seek` is
discarded, the scan starts at offset 0 and the lines of the whole file are
returned. -/
theorem ReadNewLines_refused_seek :
    ReadNewLines ext4MaxOffset (fun _ => some [97, 10, 98, 10])
        { filePath := "storage/logs.txt", lastByte := 9223372036854775807 } =
      (Except.ok [[97], [98]], { filePath := "storage/logs.txt", lastByte := 4 }) := by
  decide

/-- C6 (counterexample): `ReadLast10Lines` on a file of 5 bytes sets the
cursor to 5; the file is then cut down to 2 bytes; `ReadNewLines` returns
success with no lines, not a failure, and lowers the cursor from 5 to 2. -/
theorem C6_counterexample_truncated_file :
    (ReadLast10Lines (fun _ => some [97, 98, 99, 100, 10])
        (NewFileReader "storage/logs.txt")).2 =
        { filePath := "storage/logs.txt", lastByte := 5 } ∧
      ReadNewLines ext4MaxOffset (fun _ => some [49, 10])
          (ReadLast10Lines (fun _ => some [97, 98, 99, 100, 10])
            (NewFileReader "storage/logs.txt")).2 =
        (Except.ok [], { filePath := "storage/logs.txt", lastByte := 2 }) ∧
      (2 : Int) < 5 := by
  decide

/-- C6 (amended): when the cursor is greater than the size of the file and
is an offset the file system accepts, `ReadNewLines` returns a successful
empty result and sets the cursor to the file size, which lowers it; when the
file is at least as long as the cursor, the cursor after `ReadNewLines` and
after `ReadLast10Lines` is not below the cursor before. -/
theorem C6_truncated_file_resets_cursor (maxOffset : Nat) (fs : FS) (r : FileReader)
    (data : Bytes) (hfile : fs r.filePath = some data) :
    ((data.length : Int) < r.lastByte → r.lastByte ≤ (maxOffset : Int) →
        ReadNewLines maxOffset fs r =
            (Except.ok [], { filePath := r.filePath, lastByte := (data.length : Int) }) ∧
          (ReadNewLines maxOffset fs r).2.lastByte < r.lastByte) ∧
      (r.lastByte ≤ (data.length : Int) →
        r.lastByte ≤ (ReadNewLines maxOffset fs r).2.lastByte ∧
          r.lastByte ≤ (ReadLast10Lines fs r).2.lastByte) := by
  constructor
  · intro hlt hmax
    have hseek : seekAccepted maxOffset data r.lastByte = true := by
      unfold seekAccepted
      simp only [decide_eq_true_eq]
      omega
    have hdrop : data.drop r.lastByte.toNat = [] := by
      apply List.drop_eq_nil_of_le
      omega
    have hrun : ReadNewLines maxOffset fs r =
        (Except.ok [], { filePath := r.filePath, lastByte := (data.length : Int) }) := by
      unfold ReadNewLines
      simp only [hfile, hseek, if_true, hdrop, List.length_nil, Nat.zero_add, scanLoop,
        Scan_nil]
    exact ⟨hrun, by rw [hrun]; exact hlt⟩
  · intro hle
    constructor
    · unfold ReadNewLines
      simp only [hfile]
      exact hle
    · unfold ReadLast10Lines
      simp only [hfile]
      cases readLoop data r.lastByte data.length [] [] with
      | error e => exact Int.le_refl _
      | ok st => exact hle

/-- C6 (amended) at a file of 2 bytes with the cursor 5, where the cursor
falls to 2, and at a file of 5 bytes with the cursor 2, where it does not
fall. -/
theorem C6_truncated_file_resets_cursor_witness :
    (ReadNewLines ext4MaxOffset (fun _ => some [49, 10])
          { filePath := "storage/logs.txt", lastByte := 5 } =
          (Except.ok [], { filePath := "storage/logs.txt", lastByte := 2 }) ∧
        (ReadNewLines ext4MaxOffset (fun _ => some [49, 10])
          { filePath := "storage/logs.txt", lastByte := 5 }).2.lastByte < 5) ∧
      ((2 : Int) ≤ (ReadNewLines ext4MaxOffset (fun _ => some [49, 10, 50, 51, 10])
          { filePath := "storage/logs.txt", lastByte := 2 }).2.lastByte ∧
        (2 : Int) ≤ (ReadLast10Lines (fun _ => some [49, 10, 50, 51, 10])
          { filePath := "storage/logs.txt", lastByte := 2 }).2.lastByte) :=
  ⟨(C6_truncated_file_resets_cursor ext4MaxOffset (fun _ => some [49, 10])
      { filePath := "storage/logs.txt", lastByte := 5 } [49, 10] rfl).1
      (by decide) (by decide),
    (C6_truncated_file_resets_cursor ext4MaxOffset (fun _ => some [49, 10, 50, 51, 10])
      { filePath := "storage/logs.txt", lastByte := 2 } [49, 10, 50, 51, 10] rfl).2
      (by decide)⟩

set_option maxRecDepth 100000 in
theorem EncodeRune_high_byte :
    ∀ x < 256, 128 ≤ x → EncodeRune x = [192 + x / 64, 128 + x % 64] := by
  decide

/-- C10: `appendLinestoResult` concatenates the UTF-8 encodings of the bytes
taken as code points; its result equals the input exactly when every byte is
below `0x80`; a byte from `0x80` to `0xFF` becomes the two bytes
`0xC0 + b / 64`, `0x80 + b % 64`; and `ReadLast10Lines` on a fresh reader
returns each of the last ten newline-separated segments of the file passed
through this conversion, so a segment with a byte of `0x80` or more comes
back different and longer than the file holds it. -/
theorem C10_bytes_reencoded_as_code_points (fs : FS) (path : String) (segs : List Bytes)
    (hne : segs ≠ []) (hs : ∀ s ∈ segs, ∀ x ∈ s, x ≠ 10)
    (hfile : fs path = some (List.intercalate [10] segs)) :
    (∀ b : Bytes, appendLinestoResult b = b.flatMap EncodeRune) ∧
      (∀ b : Bytes, appendLinestoResult b = b ↔ ∀ x ∈ b, x < 128) ∧
      (∀ x : Nat, 128 ≤ x → x < 256 → EncodeRune x = [192 + x / 64, 128 + x % 64]) ∧
      (ReadLast10Lines fs (NewFileReader path)).1 =
        Except.ok ((segs.drop (segs.length - 10)).map appendLinestoResult) ∧
      (∀ s ∈ segs.drop (segs.length - 10), (∃ x ∈ s, 128 ≤ x) →
        appendLinestoResult s ≠ s ∧ s.length < (appendLinestoResult s).length) := by
  have hiff : ∀ b : Bytes, appendLinestoResult b = b ↔ ∀ x ∈ b, x < 128 := by
    intro b
    constructor
    · intro heq x hx
      by_contra hge
      have hlt := appendLinestoResult_length_gt b x hx (by omega)
      rw [heq] at hlt
      exact Nat.lt_irrefl _ hlt
    · exact appendLinestoResult_ascii b
  refine ⟨appendLinestoResult_eq_flatMap, hiff, ?_, ?_, ?_⟩
  · intro x h1 h2
    exact EncodeRune_high_byte x h2 h1
  · rw [ReadLast10Lines_segments fs path segs hne hs hfile]
  · intro s _ hex
    obtain ⟨x, hx, hge⟩ := hex
    have hlt := appendLinestoResult_length_gt s x hx hge
    refine ⟨?_, hlt⟩
    intro heq
    rw [heq] at hlt
    exact Nat.lt_irrefl _ hlt

/-- C10 at the file `a`, newline, byte `0xE9`: the second segment comes back
as the two bytes `0xC3 0xA9`. -/
theorem C10_bytes_reencoded_as_code_points_witness :
    appendLinestoResult [97, 233] = [97, 233].flatMap EncodeRune ∧
      (appendLinestoResult [97, 233] = [97, 233] ↔ ∀ x ∈ [97, 233], x < 128) ∧
      EncodeRune 233 = [192 + 233 / 64, 128 + 233 % 64] ∧
      (ReadLast10Lines (fun _ => some (List.intercalate [10] [[97], [233]]))
          (NewFileReader "storage/logs.txt")).1 =
        Except.ok ((List.drop ([[97], [233]].length - 10) [[97], [233]]).map
          appendLinestoResult) ∧
      (appendLinestoResult [233] ≠ [233] ∧
        ([233] : Bytes).length < (appendLinestoResult [233]).length) :=
  have hall := C10_bytes_reencoded_as_code_points
    (fun _ => some (List.intercalate [10] [[97], [233]]))
    "storage/logs.txt" [[97], [233]] (by decide) (by decide) rfl
  ⟨hall.1 [97, 233], hall.2.1 [97, 233], hall.2.2.1 233 (by decide) (by decide), hall.2.2.2.1,
    hall.2.2.2.2 [233] (by decide) ⟨233, by decide, by decide⟩⟩

theorem intercalate_ends_with_last (sep : Bytes) (lines : List Bytes) (h : lines ≠ []) :
    ∃ front : Bytes, List.intercalate sep lines = front ++ lines.getLast h := by
  induction lines using List.reverseRecOn with
  | nil => exact absurd rfl h
  | append_singleton init a _ =>
      simp only [List.getLast_append_singleton]
      by_cases hi : init = []
      · subst hi
        exact ⟨[], by simp [List.intercalate, List.intersperse]⟩
      · exact ⟨List.intercalate sep init ++ sep, intercalate_append_singleton sep init a hi⟩

/-- C7 (counterexample): with the sinks 1 and 2 registered and no write
failing, a broadcast of the empty line sequence makes two `WriteMessage`
calls, each with the empty message. -/
theorem C7_counterexample_empty_broadcast_writes :
    (BroadcastMessageToConnectedClients (fun _ => false)
        { connectedClients := [1, 2], writes := [], closed := [] } []).writes =
        [(1, [], true), (2, [], true)] ∧
      (BroadcastMessageToConnectedClients (fun _ => false)
        { connectedClients := [1, 2], writes := [], closed := [] } []).writes.length ≠ 0 := by
  decide

/-- C7 (amended): a broadcast of the empty line sequence makes exactly one
`WriteMessage` call, with the empty message, on every registered sink; the
registered set afterwards is the initial one without the sinks whose write
failed, hence unchanged when no write fails. -/
theorem C7_empty_broadcast_writes_empty_message (writeFails : Conn → Bool) (h : Hub)
    (hnd : h.connectedClients.Nodup) :
    (BroadcastMessageToConnectedClients writeFails h []).writes =
        h.writes ++ h.connectedClients.map (fun c => (c, [], !(writeFails c))) ∧
      (BroadcastMessageToConnectedClients writeFails h []).connectedClients =
        h.connectedClients.filter (fun c => !(writeFails c)) ∧
      ((∀ c ∈ h.connectedClients, writeFails c = false) →
        (BroadcastMessageToConnectedClients writeFails h []).connectedClients =
          h.connectedClients) := by
  rw [Broadcast_spec writeFails h [] hnd]
  refine ⟨by simp [List.intercalate, List.intersperse], rfl, ?_⟩
  intro hall
  show h.connectedClients.filter (fun c => !(writeFails c)) = h.connectedClients
  rw [List.filter_eq_self]
  intro c hc
  simp [hall c hc]

/-- C7 (amended) at the sinks 1, 2, 3: with the write to 2 failing, three
empty messages are written and 2 leaves the set; with no write failing the
set is unchanged. -/
theorem C7_empty_broadcast_writes_empty_message_witness :
    (BroadcastMessageToConnectedClients (fun c => decide (c = 2))
        { connectedClients := [1, 2, 3], writes := [], closed := [] } []).writes =
        [(1, [], true), (2, [], false), (3, [], true)] ∧
      (BroadcastMessageToConnectedClients (fun c => decide (c = 2))
        { connectedClients := [1, 2, 3], writes := [], closed := [] } []).connectedClients =
        [1, 3] ∧
      (BroadcastMessageToConnectedClients (fun _ => false)
        { connectedClients := [1, 2, 3], writes := [], closed := [] } []).connectedClients =
        [1, 2, 3] :=
  ⟨(C7_empty_broadcast_writes_empty_message (fun c => decide (c = 2))
      { connectedClients := [1, 2, 3], writes := [], closed := [] } (by decide)).1,
    (C7_empty_broadcast_writes_empty_message (fun c => decide (c = 2))
      { connectedClients := [1, 2, 3], writes := [], closed := [] } (by decide)).2.1,
    (C7_empty_broadcast_writes_empty_message (fun _ => false)
      { connectedClients := [1, 2, 3], writes := [], closed := [] } (by decide)).2.2
      (by decide)⟩

/-- C8: for every registered set `R` (the keys of the map, in any visiting
order), every choice of failing sinks and every non-empty line sequence, a
sequential broadcast calls `WriteMessage` exactly once on every sink of `R`
and on no other, each time with the lines joined by single newlines and no
trailing terminator, also on the sinks visited after a failing one; the
failing sinks are closed and the registered set afterwards is `R` without
them. -/
theorem C8_broadcast_isolates_failures (writeFails : Conn → Bool) (h : Hub)
    (lines : List Bytes) (hnd : h.connectedClients.Nodup) (hlines : lines ≠ []) :
    (BroadcastMessageToConnectedClients writeFails h lines).writes =
        h.writes ++ h.connectedClients.map
          (fun c => (c, List.intercalate [10] lines, !(writeFails c))) ∧
      (∀ c : Conn,
        ((BroadcastMessageToConnectedClients writeFails h lines).writes.map Prod.fst).count c =
          (h.writes.map Prod.fst).count c + (if c ∈ h.connectedClients then 1 else 0)) ∧
      (BroadcastMessageToConnectedClients writeFails h lines).connectedClients =
        h.connectedClients.filter (fun c => !(writeFails c)) ∧
      (∀ c : Conn, c ∈ (BroadcastMessageToConnectedClients writeFails h lines).connectedClients ↔
        c ∈ h.connectedClients ∧ writeFails c = false) ∧
      (BroadcastMessageToConnectedClients writeFails h lines).closed =
        h.closed ++ h.connectedClients.filter writeFails ∧
      List.intercalate [10] lines = Join lines [10] ∧
      (∃ front : Bytes, List.intercalate [10] lines = front ++ lines.getLast hlines) := by
  rw [Broadcast_spec writeFails h lines hnd]
  refine ⟨rfl, ?_, rfl, ?_, rfl, (Join_eq_intercalate lines [10]).symm, ?_⟩
  · intro c
    simp only [List.map_append, List.map_map, List.count_append]
    have hmap : (h.connectedClients.map
        (Prod.fst ∘ fun c => (c, List.intercalate [10] lines, !(writeFails c)))) =
        h.connectedClients := by
      simp [Function.comp_def]
    rw [hmap, List.count_eq_of_nodup hnd]
  · intro c
    simp [List.mem_filter]
  · exact intercalate_ends_with_last [10] lines hlines

/-- C8 at the sinks 1, 2, 3, the write to 2 failing, and the single line `x`:
1 and 3 receive `x` and stay registered, 2 is removed and closed. -/
theorem C8_broadcast_isolates_failures_witness :
    (BroadcastMessageToConnectedClients (fun c => decide (c = 2))
        { connectedClients := [1, 2, 3], writes := [], closed := [] } [[120]]).writes =
        ([] : List (Conn × Bytes × Bool)) ++ [1, 2, 3].map
          (fun c => (c, List.intercalate [10] [[120]], !(decide (c = 2)))) ∧
      (∀ c : Conn,
        ((BroadcastMessageToConnectedClients (fun c => decide (c = 2))
            { connectedClients := [1, 2, 3], writes := [], closed := [] }
            [[120]]).writes.map Prod.fst).count c =
          (([] : List (Conn × Bytes × Bool)).map Prod.fst).count c +
            (if c ∈ [1, 2, 3] then 1 else 0)) ∧
      (BroadcastMessageToConnectedClients (fun c => decide (c = 2))
        { connectedClients := [1, 2, 3], writes := [], closed := [] }
        [[120]]).connectedClients =
        [1, 2, 3].filter (fun c => !(decide (c = 2))) ∧
      (∀ c : Conn, c ∈ (BroadcastMessageToConnectedClients (fun c => decide (c = 2))
          { connectedClients := [1, 2, 3], writes := [], closed := [] }
          [[120]]).connectedClients ↔
        c ∈ [1, 2, 3] ∧ decide (c = 2) = false) ∧
      (BroadcastMessageToConnectedClients (fun c => decide (c = 2))
        { connectedClients := [1, 2, 3], writes := [], closed := [] } [[120]]).closed =
        ([] : List Conn) ++ [1, 2, 3].filter (fun c => decide (c = 2)) ∧
      List.intercalate [10] [[120]] = Join [[120]] [10] ∧
      (∃ front : Bytes,
        List.intercalate [10] [[120]] = front ++ [[120]].getLast (by decide)) :=
  C8_broadcast_isolates_failures (fun c => decide (c = 2))
    { connectedClients := [1, 2, 3], writes := [], closed := [] } [[120]]
    (by decide) (by decide)

/-- C9: for every registered set `R`, every sink `s` outside `R` and every
snapshot, after `BroadcastMessageToNewClient` the sink `s` is registered
exactly when its initial write succeeded; when the write fails `s` is closed
and the set is still `R`; in both cases the membership of every other sink
is unchanged, nothing is written to it and it is not closed. -/
theorem C9_new_client_registered_iff_write_ok (writeFails : Conn → Bool) (h : Hub)
    (s : Conn) (logs : List Bytes) (hs : s ∉ h.connectedClients) :
    (s ∈ (BroadcastMessageToNewClient writeFails h s logs).connectedClients ↔
        writeFails s = false) ∧
      (writeFails s = true →
        (BroadcastMessageToNewClient writeFails h s logs).connectedClients =
            h.connectedClients ∧
          (BroadcastMessageToNewClient writeFails h s logs).closed = h.closed ++ [s]) ∧
      (writeFails s = false →
        (BroadcastMessageToNewClient writeFails h s logs).connectedClients =
            h.connectedClients ++ [s] ∧
          (BroadcastMessageToNewClient writeFails h s logs).closed = h.closed) ∧
      (∀ c : Conn, c ≠ s →
        (c ∈ (BroadcastMessageToNewClient writeFails h s logs).connectedClients ↔
          c ∈ h.connectedClients)) ∧
      (BroadcastMessageToNewClient writeFails h s logs).writes =
        h.writes ++ [(s, List.intercalate [10] logs, !(writeFails s))] := by
  cases hw : writeFails s with
  | true =>
      simp [BroadcastMessageToNewClient, WriteMessage, Close, hw, hs, Join_eq_intercalate]
  | false =>
      simp [BroadcastMessageToNewClient, WriteMessage, addClient, hw, hs, Join_eq_intercalate]
      intro c h1 h2
      exact absurd h2 h1

/-- C9 at the registered sinks 1 and 3 and the new sink 4: when the write
to 4 fails the set stays 1, 3 and 4 is closed; when it succeeds the set
becomes 1, 3, 4 and nothing is closed. -/
theorem C9_new_client_registered_iff_write_ok_witness :
    ((BroadcastMessageToNewClient (fun c => decide (c = 4))
          { connectedClients := [1, 3], writes := [], closed := [] } 4 [[120]]).connectedClients =
          [1, 3] ∧
        (BroadcastMessageToNewClient (fun c => decide (c = 4))
          { connectedClients := [1, 3], writes := [], closed := [] } 4 [[120]]).closed =
          [] ++ [4]) ∧
      ((BroadcastMessageToNewClient (fun _ => false)
          { connectedClients := [1, 3], writes := [], closed := [] } 4 [[120]]).connectedClients =
          [1, 3] ++ [4] ∧
        (BroadcastMessageToNewClient (fun _ => false)
          { connectedClients := [1, 3], writes := [], closed := [] } 4 [[120]]).closed =
          []) ∧
      (BroadcastMessageToNewClient (fun _ => false)
        { connectedClients := [1, 3], writes := [], closed := [] } 4 [[120]]).writes =
        [] ++ [(4, List.intercalate [10] [[120]], !false)] :=
  ⟨(C9_new_client_registered_iff_write_ok (fun c => decide (c = 4))
      { connectedClients := [1, 3], writes := [], closed := [] } 4 [[120]]
      (by decide)).2.1 (by decide),
    (C9_new_client_registered_iff_write_ok (fun _ => false)
      { connectedClients := [1, 3], writes := [], closed := [] } 4 [[120]]
      (by decide)).2.2.1 rfl,
    (C9_new_client_registered_iff_write_ok (fun _ => false)
      { connectedClients := [1, 3], writes := [], closed := [] } 4 [[120]]
      (by decide)).2.2.2.2⟩

end FileTail
